import Mathlib

/-!
Verification of the analytics core of the `ai-trading-journal` backend
(`src/backend/main.py`).  Numeric fields are modelled as exact rationals;
the FastAPI error channel is modelled with `Except`; the Python dict used
for per-condition outcomes is an insertion-ordered association list; and
Python's stable `sorted(..., reverse=True)` is modelled by a stable
descending insertion sort.
-/

namespace AITradingJournal

/-- A recorded trade; mirrors the `TradeEntry` model of `src/backend/main.py`
with numeric fields as exact rationals and the timestamp as an integer. -/
structure TradeEntry where
  entry_date : ℤ
  symbol : String
  entry_price : ℚ
  exit_price : ℚ
  position_size : ℚ
  trade_type : String
  market_conditions : List String
  notes : String
  chart_images : List String
deriving DecidableEq

/-- Derived P&L of a trade, from the `profit_loss` property: the multiplier is
`1` when `trade_type` is exactly the string `"long"` and `-1` otherwise. -/
def TradeEntry.profit_loss (t : TradeEntry) : ℚ :=
  (if t.trade_type = "long" then 1 else -1) * (t.exit_price - t.entry_price) * t.position_size

/-- Value of the profit-factor field: a rational, or the positive-infinity
sentinel produced by `float('inf')` in the source. -/
inductive ProfitFactor where
  | finite (val : ℚ) : ProfitFactor
  | inf : ProfitFactor
deriving DecidableEq

/-- The `TradeAnalysis` response model of the source. -/
structure TradeAnalysis where
  win_rate : ℚ
  profit_factor : ProfitFactor
  average_win : ℚ
  average_loss : ℚ
  best_conditions : List String
  pattern_insights : List String
deriving DecidableEq

/-- A FastAPI `HTTPException`, reduced to the data the source puts in it. -/
structure HTTPException where
  status_code : ℕ
  detail : String
deriving DecidableEq

/-- One step of building the `condition_performance` dict: append outcome `b`
to the entry of condition `c`, creating the entry at the end when the key is
new (Python dicts preserve insertion order). -/
def addOutcome (acc : List (String × List Bool)) (c : String) (b : Bool) :
    List (String × List Bool) :=
  if acc.any (fun p => p.1 = c) then
    acc.map (fun p => if p.1 = c then (p.1, p.2 ++ [b]) else p)
  else
    acc ++ [(c, [b])]

/-- The `condition_performance` dict of `analyze_performance`: for each
condition label, in first-encountered order, the win/loss outcomes of the
trades carrying it (one entry per occurrence of the label). -/
def condition_performance (trades : List TradeEntry) : List (String × List Bool) :=
  trades.foldl
    (fun acc t =>
      t.market_conditions.foldl (fun a c => addOutcome a c (decide (0 < t.profit_loss))) acc)
    []

/-- The sort key the source uses to rank conditions: `sum(x[1]) / len(x[1])`,
i.e. the fraction of `true` outcomes. -/
def winRate (p : String × List Bool) : ℚ :=
  ((p.2.countP id : ℕ) : ℚ) / ((p.2.length : ℕ) : ℚ)

/-- Insert `x` into a list sorted descending by `key`, placing it before the
first element whose key is not above `key x`; equal keys therefore keep
first-come order. -/
def insertDesc {α : Type} (key : α → ℚ) (x : α) : List α → List α
  | [] => [x]
  | y :: ys => if key x < key y then y :: insertDesc key x ys else x :: y :: ys

/-- Stable descending sort by `key`: the behaviour of Python
`sorted(..., key=key, reverse=True)`. -/
def sortDesc {α : Type} (key : α → ℚ) : List α → List α
  | [] => []
  | x :: xs => insertDesc key x (sortDesc key xs)

/-- Round a rational to the nearest integer, halves to even: the rounding of
Python's fixed-point formatting, read over exact rationals. -/
def roundHalfEven (q : ℚ) : ℤ :=
  if q - ⌊q⌋ < 1/2 then ⌊q⌋
  else if (1 : ℚ)/2 < q - ⌊q⌋ then ⌊q⌋ + 1
  else if ⌊q⌋ % 2 = 0 then ⌊q⌋ else ⌊q⌋ + 1

/-- Format a nonnegative rational with exactly one decimal digit, as Python's
format specifier `.1f` does for the win-rate percentages of the source. -/
def fmtOneDec (q : ℚ) : String :=
  toString ((roundHalfEven (q * 10)).toNat / 10) ++ "." ++
    toString ((roundHalfEven (q * 10)).toNat % 10)

/-- The pattern-insight string built for one ranked condition entry. -/
def insightString (p : String × List Bool) : String :=
  "Best win rate in " ++ p.1 ++ ": " ++ fmtOneDec (winRate p * 100) ++ "%"

/-- The `winning_trades` local of `analyze_performance`. -/
def winning_trades (trades : List TradeEntry) : List TradeEntry :=
  trades.filter (fun t => decide (0 < t.profit_loss))

/-- The `profits` pool of `analyze_performance`: P&L of trades with positive P&L. -/
def profits (trades : List TradeEntry) : List ℚ :=
  (trades.filter (fun t => decide (0 < t.profit_loss))).map (fun t => t.profit_loss)

/-- The `losses` pool of `analyze_performance`: absolute P&L of trades with
negative P&L. -/
def losses (trades : List TradeEntry) : List ℚ :=
  (trades.filter (fun t => decide (t.profit_loss < 0))).map (fun t => |t.profit_loss|)

/-- The `best_conditions` local of `analyze_performance`: condition entries
stably sorted descending by win rate, truncated to three. -/
def bestConditions (trades : List TradeEntry) : List (String × List Bool) :=
  (sortDesc winRate (condition_performance trades)).take 3

/-- The `GET /analysis/performance` handler `analyze_performance`, as a pure
function of the trade snapshot. -/
def analyze_performance (trades : List TradeEntry) :
    Except HTTPException TradeAnalysis :=
  if trades.isEmpty then
    .error ⟨404, "No trades found"⟩
  else
    .ok
      { win_rate := ((winning_trades trades).length : ℚ) / (trades.length : ℚ)
        profit_factor :=
          if (losses trades).isEmpty then ProfitFactor.inf
          else ProfitFactor.finite ((profits trades).sum / |(losses trades).sum|)
        average_win :=
          if (profits trades).isEmpty then 0
          else (profits trades).sum / ((profits trades).length : ℚ)
        average_loss :=
          if (losses trades).isEmpty then 0
          else (losses trades).sum / ((losses trades).length : ℚ)
        best_conditions := (bestConditions trades).map (fun c => c.1)
        pattern_insights := (bestConditions trades).map insightString }

/-- Feature vector of one trade in `analyze_patterns`: direction flag, position
size, then one binary indicator per condition label of `condOrder` (the
iteration order of the source's set union over all trades' labels). -/
def featureVector (condOrder : List String) (t : TradeEntry) : List ℚ :=
  (if t.trade_type = "long" then (1 : ℚ) else 0) :: t.position_size ::
    condOrder.map (fun c => if c ∈ t.market_conditions then (1 : ℚ) else 0)

/-- The feature-name list of `analyze_patterns`:
`['trade_type', 'position_size'] + list(<set union of condition labels>)`. -/
def feature_names (condOrder : List String) : List String :=
  "trade_type" :: "position_size" :: condOrder

/-- One `important_factors` entry of the pattern report. -/
structure FactorScore where
  factor : String
  importance : ℚ
deriving DecidableEq

/-- The response of `analyze_patterns`. -/
structure PatternReport where
  important_factors : List FactorScore
  success_patterns : List String
deriving DecidableEq

/-- The `GET /analysis/patterns` handler `analyze_patterns`.  The fitted
random-forest classifier lives in an external library, so its
`feature_importances_` vector is abstracted as the function argument
`importancesOf` from the feature matrix and label list; `condOrder` is the
iteration order of the source's set union of condition labels, identical in
feature construction and feature naming within one call. -/
def analyze_patterns (importancesOf : List (List ℚ) → List ℕ → List ℚ)
    (condOrder : List String) (trades : List TradeEntry) :
    Except HTTPException PatternReport :=
  if trades.length < 10 then
    .error ⟨400, "Need at least 10 trades for pattern analysis"⟩
  else
    let features := trades.map (featureVector condOrder)
    let labels := trades.map (fun t => if 0 < t.profit_loss then (1 : ℕ) else 0)
    let importance :=
      sortDesc (fun p => p.2) ((feature_names condOrder).zip (importancesOf features labels))
    .ok
      { important_factors :=
          (importance.take 5).map (fun p => { factor := p.1, importance := p.2 })
        success_patterns :=
          (importance.take 3).map
            (fun p => "High correlation between " ++ p.1 ++ " and profitable trades") }

/-! ### Concrete trade records used as test inputs -/

/-- First trade of the spec's worked example: LONG 100 → 110, size 1. -/
def exTrade1 : TradeEntry :=
  ⟨0, "AAA", 100, 110, 1, "long", ["trend"], "", []⟩

/-- Second trade of the spec's worked example: SHORT 50 → 40, size 2. -/
def exTrade2 : TradeEntry :=
  ⟨0, "BBB", 50, 40, 2, "short", ["trend"], "", []⟩

/-- Third trade of the spec's worked example: LONG 30 → 20, size 1. -/
def exTrade3 : TradeEntry :=
  ⟨0, "CCC", 30, 20, 1, "long", ["range"], "", []⟩

/-- A winning LONG trade with an uppercase direction string. -/
def upperTrade : TradeEntry :=
  ⟨0, "DDD", 100, 110, 1, "LONG", [], "", []⟩

/-- A plain winning LONG trade without condition labels. -/
def plainWin : TradeEntry :=
  ⟨0, "EEE", 1, 2, 1, "long", [], "", []⟩

/-! ### Evaluation of `analyze_performance` on non-empty input -/

/-- On a non-empty snapshot `analyze_performance` returns the report built from
the pools and the ranked conditions. -/
theorem analyze_performance_cons (t : TradeEntry) (rest : List TradeEntry) :
    analyze_performance (t :: rest) =
      .ok
        { win_rate := ((winning_trades (t :: rest)).length : ℚ) / (((t :: rest).length : ℕ) : ℚ)
          profit_factor :=
            if (losses (t :: rest)).isEmpty then ProfitFactor.inf
            else ProfitFactor.finite ((profits (t :: rest)).sum / |(losses (t :: rest)).sum|)
          average_win :=
            if (profits (t :: rest)).isEmpty then 0
            else (profits (t :: rest)).sum / ((profits (t :: rest)).length : ℚ)
          average_loss :=
            if (losses (t :: rest)).isEmpty then 0
            else (losses (t :: rest)).sum / ((losses (t :: rest)).length : ℚ)
          best_conditions := (bestConditions (t :: rest)).map (fun c => c.1)
          pattern_insights := (bestConditions (t :: rest)).map insightString } := rfl

/-- C1: on every non-empty snapshot, `win_rate` is the number of trades with
strictly positive `profit_loss` divided by the total trade count, it lies in
`[0, 1]`, and trades with zero or negative `profit_loss` enter only the
denominator (the numerator counts exactly the strictly positive ones). -/
theorem win_rate_def_and_bounds (t : TradeEntry) (rest : List TradeEntry) :
    ∃ r, analyze_performance (t :: rest) = .ok r ∧
      r.win_rate =
        (((t :: rest).countP (fun u => decide (0 < u.profit_loss)) : ℕ) : ℚ) /
          (((t :: rest).length : ℕ) : ℚ) ∧
      0 ≤ r.win_rate ∧ r.win_rate ≤ 1 := by
  refine ⟨_, analyze_performance_cons t rest, ?_, ?_, ?_⟩
  · simp [winning_trades, List.countP_eq_length_filter]
  · exact div_nonneg (by positivity) (by positivity)
  · have hlen : ((winning_trades (t :: rest)).length : ℚ) ≤ (((t :: rest).length : ℕ) : ℚ) := by
      exact_mod_cast List.length_filter_le _ _
    have hpos : (0 : ℚ) < (((t :: rest).length : ℕ) : ℚ) := by
      simp [List.length_cons]
      positivity
    simpa using (div_le_one hpos).mpr hlen

/-- C2: on every non-empty snapshot, `profit_factor` is the profit-pool sum over
the absolute loss-pool sum when the loss pool is non-empty, and the
positive-infinity sentinel whenever the loss pool is empty (also when the
profit pool is empty as well); in particular when every trade has positive
`profit_loss` the result is the sentinel and `average_loss` is `0`. -/
theorem profit_factor_def (t : TradeEntry) (rest : List TradeEntry) :
    ∃ r, analyze_performance (t :: rest) = .ok r ∧
      (losses (t :: rest) ≠ [] →
        r.profit_factor =
          ProfitFactor.finite ((profits (t :: rest)).sum / |(losses (t :: rest)).sum|)) ∧
      (losses (t :: rest) = [] → r.profit_factor = ProfitFactor.inf) ∧
      ((∀ u ∈ t :: rest, 0 < u.profit_loss) →
        r.profit_factor = ProfitFactor.inf ∧ r.average_loss = 0) := by
  refine ⟨_, analyze_performance_cons t rest, ?_, ?_, ?_⟩
  · intro h
    simp [List.isEmpty_iff, h]
  · intro h
    simp [h]
  · intro h
    have hl : losses (t :: rest) = [] := by
      simp only [losses, List.map_eq_nil_iff, List.filter_eq_nil_iff]
      intro u hu
      simpa using not_lt.mpr (le_of_lt (h u hu))
    simp [hl]

/-- Witness for C2: a snapshot whose only trade wins gives the infinity sentinel
and zero average loss. -/
theorem profit_factor_def_witness :
    ∃ r, analyze_performance [plainWin] = .ok r ∧
      r.profit_factor = ProfitFactor.inf ∧ r.average_loss = 0 := by
  obtain ⟨r, hr, h₁, h₂, h₃⟩ := profit_factor_def plainWin []
  have hall : ∀ u ∈ [plainWin], 0 < u.profit_loss := by
    intro u hu
    simp only [List.mem_singleton] at hu
    subst hu
    simp [TradeEntry.profit_loss, plainWin]
  exact ⟨r, hr, (h₃ hall).1, (h₃ hall).2⟩

/-- C6: `analyze_performance` fails, with exactly the 404 error carrying
`"No trades found"`, precisely on the empty snapshot, and returns a report on
every non-empty snapshot. -/
theorem analyze_error_iff (trades : List TradeEntry) :
    (analyze_performance trades = .error ⟨404, "No trades found"⟩ ↔ trades = []) ∧
    ((∃ e, analyze_performance trades = .error e) ↔ trades = []) ∧
    ((∃ r, analyze_performance trades = .ok r) ↔ trades ≠ []) := by
  match trades with
  | [] => simp [analyze_performance]
  | t :: rest => simp [analyze_performance_cons]

/-- Witness for C6: the empty snapshot produces exactly the 404 error. -/
theorem analyze_error_iff_witness :
    analyze_performance [] = .error ⟨404, "No trades found"⟩ :=
  (analyze_error_iff []).1.mpr rfl

/-- C9: `analyze_performance` is deterministic — equal snapshots give equal
reports, field for field. -/
theorem analyze_deterministic (t₁ t₂ : List TradeEntry) (h : t₁ = t₂) :
    analyze_performance t₁ = analyze_performance t₂ ∧
    ∀ r₁ r₂, analyze_performance t₁ = .ok r₁ → analyze_performance t₂ = .ok r₂ →
      r₁.win_rate = r₂.win_rate ∧ r₁.profit_factor = r₂.profit_factor ∧
      r₁.average_win = r₂.average_win ∧ r₁.average_loss = r₂.average_loss ∧
      r₁.best_conditions = r₂.best_conditions ∧ r₁.pattern_insights = r₂.pattern_insights := by
  subst h
  refine ⟨rfl, ?_⟩
  intro r₁ r₂ h₁ h₂
  rw [h₁] at h₂
  simp only [Except.ok.injEq] at h₂
  subst h₂
  exact ⟨rfl, rfl, rfl, rfl, rfl, rfl⟩

/-- Witness for C9: two invocations on the same one-trade snapshot agree. -/
theorem analyze_deterministic_witness :
    analyze_performance [plainWin] = analyze_performance [plainWin] :=
  (analyze_deterministic [plainWin] [plainWin] rfl).1

/-- C10: any `trade_type` other than the exact lowercase string `"long"` gets
the `-1` multiplier, so `profit_loss = -((exit_price - entry_price) *
position_size)`, and neither endpoint rejects such a trade. -/
theorem non_long_is_short (t : TradeEntry) (h : t.trade_type ≠ "long") :
    t.profit_loss = -((t.exit_price - t.entry_price) * t.position_size) ∧
    (∃ r, analyze_performance [t] = .ok r) ∧
    (∀ importancesOf condOrder,
      ∃ p, analyze_patterns importancesOf condOrder (List.replicate 10 t) = .ok p) := by
  refine ⟨?_, ⟨_, analyze_performance_cons t []⟩, ?_⟩
  · simp only [TradeEntry.profit_loss, if_neg h]
    ring
  · intro importancesOf condOrder
    have h10 : ¬ (List.replicate 10 t).length < 10 := by simp
    exact ⟨_, by unfold analyze_patterns; rw [if_neg h10]⟩

/-- Witness for C10: the unvalidated direction string `"LONG"` is treated as a
short position. -/
theorem non_long_is_short_witness :
    upperTrade.profit_loss =
      -((upperTrade.exit_price - upperTrade.entry_price) * upperTrade.position_size) ∧
    (∃ r, analyze_performance [upperTrade] = .ok r) := by
  have h := non_long_is_short upperTrade (by decide)
  exact ⟨h.1, h.2.1⟩

/-- C3: the spec's worked three-trade example — derived P&Ls `+10, +20, -10`,
win rate `2/3`, average win `15`, average loss `10`, profit factor `3`, and
best conditions `["trend", "range"]` in that order. -/
theorem worked_example :
    [exTrade1, exTrade2, exTrade3].map TradeEntry.profit_loss = [10, 20, -10] ∧
    analyze_performance [exTrade1, exTrade2, exTrade3] =
      .ok
        { win_rate := 2/3
          profit_factor := .finite 3
          average_win := 15
          average_loss := 10
          best_conditions := ["trend", "range"]
          pattern_insights :=
            [insightString ("trend", [true, true]), insightString ("range", [false])] } := by
  constructor
  · simp [TradeEntry.profit_loss, exTrade1, exTrade2, exTrade3]
    norm_num
  · have hs : ("short" = "long") = False := eq_false (by decide)
    simp [analyze_performance, winning_trades, profits, losses, bestConditions,
      condition_performance, addOutcome, winRate, sortDesc, insertDesc,
      TradeEntry.profit_loss, exTrade1, exTrade2, exTrade3, hs,
      List.foldl, List.filter, List.isEmpty, List.take]
    norm_num [hs]

/-- C7: `analyze_patterns` fails, with exactly the 400 error carrying
`"Need at least 10 trades for pattern analysis"`, precisely when fewer than 10
trades are provided, and returns a report whenever at least 10 are. -/
theorem patterns_error_iff (importancesOf : List (List ℚ) → List ℕ → List ℚ)
    (condOrder : List String) (trades : List TradeEntry) :
    (analyze_patterns importancesOf condOrder trades =
        .error ⟨400, "Need at least 10 trades for pattern analysis"⟩ ↔
      trades.length < 10) ∧
    ((∃ e, analyze_patterns importancesOf condOrder trades = .error e) ↔
      trades.length < 10) ∧
    ((∃ p, analyze_patterns importancesOf condOrder trades = .ok p) ↔
      10 ≤ trades.length) := by
  unfold analyze_patterns
  by_cases h : trades.length < 10
  · simp [if_pos h, h, Nat.not_le.mpr h]
  · simp [if_neg h, h, Nat.not_lt.mp h]

/-- Witness for C7: nine identical trades are rejected, ten are accepted. -/
theorem patterns_error_iff_witness :
    analyze_patterns (fun _ _ => []) [] (List.replicate 9 plainWin) =
      .error ⟨400, "Need at least 10 trades for pattern analysis"⟩ ∧
    (∃ p, analyze_patterns (fun _ _ => []) [] (List.replicate 10 plainWin) = .ok p) := by
  constructor
  · exact (patterns_error_iff (fun _ _ => []) [] (List.replicate 9 plainWin)).1.mpr (by simp)
  · exact (patterns_error_iff (fun _ _ => []) [] (List.replicate 10 plainWin)).2.2.mpr (by simp)

/-- C8 (amended): with `condOrder` any enumeration of the distinct condition
labels of the input — the iteration order of the source's set union — the
feature vectors are direction flag, position size, then one indicator per label
of `condOrder`, and the importance scores are zipped against the names
`"trade_type" :: "position_size" :: condOrder`, the same order used for
feature construction. -/
theorem feature_alignment (importancesOf : List (List ℚ) → List ℕ → List ℚ)
    (condOrder : List String) (trades : List TradeEntry)
    (hord : condOrder.Perm (trades.flatMap (fun t => t.market_conditions)).dedup)
    (hlen : 10 ≤ trades.length) :
    condOrder.Nodup ∧
    (∀ c, c ∈ condOrder ↔ ∃ t ∈ trades, c ∈ t.market_conditions) ∧
    feature_names condOrder = "trade_type" :: "position_size" :: condOrder ∧
    (∀ t, featureVector condOrder t =
      (if t.trade_type = "long" then (1 : ℚ) else 0) :: t.position_size ::
        condOrder.map (fun c => if c ∈ t.market_conditions then (1 : ℚ) else 0)) ∧
    (∃ p, analyze_patterns importancesOf condOrder trades = .ok p ∧
      p.important_factors =
        ((sortDesc (fun q => q.2)
            ((feature_names condOrder).zip
              (importancesOf (trades.map (featureVector condOrder))
                (trades.map (fun t => if 0 < t.profit_loss then 1 else 0))))).take 5).map
          (fun q => ⟨q.1, q.2⟩)) := by
  refine ⟨hord.nodup_iff.mpr (List.nodup_dedup _), ?_, rfl, fun t => rfl, ?_⟩
  · intro c
    rw [hord.mem_iff, List.mem_dedup, List.mem_flatMap]
  · have h10 : ¬ trades.length < 10 := Nat.not_lt.mpr hlen
    exact ⟨_, by unfold analyze_patterns; rw [if_neg h10], rfl⟩

/-- Witness for C8: ten copies of a `"trend"` trade with the one-label order. -/
theorem feature_alignment_witness :
    (["trend"].Nodup) ∧
    (∀ c, c ∈ ["trend"] ↔ ∃ t ∈ List.replicate 10 exTrade1, c ∈ t.market_conditions) := by
  have h := feature_alignment (fun _ _ => []) ["trend"] (List.replicate 10 exTrade1)
    (by simp [exTrade1]) (by simp)
  exact ⟨h.1, h.2.1⟩

/-- Counterexample for C8 as stated: the feature-name list begins with the
string `"trade_type"`, not `"trade_direction"`, both in `feature_names` and in
the factors of a concrete ten-trade report. -/
theorem feature_names_counterexample :
    feature_names ["trend"] = ["trade_type", "position_size", "trend"] ∧
    "trade_direction" ∉ feature_names ["trend"] ∧
    (∃ p, analyze_patterns (fun _ _ => [(1 : ℚ), 0]) [] (List.replicate 10 plainWin) = .ok p ∧
      p.important_factors.map (fun f => f.factor) = ["trade_type", "position_size"] ∧
      "trade_direction" ∉ p.important_factors.map (fun f => f.factor)) := by
  refine ⟨rfl, by decide, ?_⟩
  have h10 : ¬ (List.replicate 10 plainWin).length < 10 := by simp
  refine ⟨_, by unfold analyze_patterns; rw [if_neg h10], ?_, ?_⟩
  · simp [feature_names, sortDesc, insertDesc]
    norm_num
  · simp [feature_names, sortDesc, insertDesc]
    norm_num
    exact ⟨by decide, by decide⟩

/-! ### Properties of the stable descending sort -/

theorem insertDesc_perm {α : Type} (k : α → ℚ) (x : α) (l : List α) :
    (insertDesc k x l).Perm (x :: l) := by
  induction l with
  | nil => simp [insertDesc]
  | cons y ys ih =>
    simp only [insertDesc]
    by_cases h : k x < k y
    · rw [if_pos h]
      exact (ih.cons y).trans (List.Perm.swap x y ys)
    · rw [if_neg h]

theorem sortDesc_perm {α : Type} (k : α → ℚ) (l : List α) : (sortDesc k l).Perm l := by
  induction l with
  | nil => simp [sortDesc]
  | cons x xs ih => exact (insertDesc_perm k x _).trans (ih.cons x)

theorem mem_insertDesc {α : Type} {k : α → ℚ} {x a : α} {l : List α} :
    a ∈ insertDesc k x l ↔ a = x ∨ a ∈ l := by
  rw [(insertDesc_perm k x l).mem_iff, List.mem_cons]

theorem pairwise_insertDesc {α : Type} (k : α → ℚ) (x : α) (l : List α)
    (h : l.Pairwise (fun a b => k b ≤ k a)) :
    (insertDesc k x l).Pairwise (fun a b => k b ≤ k a) := by
  induction l with
  | nil => simp [insertDesc]
  | cons y ys ih =>
    rcases List.pairwise_cons.mp h with ⟨hy, hys⟩
    simp only [insertDesc]
    by_cases hxy : k x < k y
    · rw [if_pos hxy]
      refine List.pairwise_cons.mpr ⟨?_, ih hys⟩
      intro a ha
      rcases mem_insertDesc.mp ha with rfl | ha
      · exact le_of_lt hxy
      · exact hy a ha
    · rw [if_neg hxy]
      refine List.pairwise_cons.mpr ⟨?_, h⟩
      intro a ha
      rcases List.mem_cons.mp ha with rfl | ha
      · exact not_lt.mp hxy
      · exact le_trans (hy a ha) (not_lt.mp hxy)

theorem sortDesc_sorted {α : Type} (k : α → ℚ) (l : List α) :
    (sortDesc k l).Pairwise (fun a b => k b ≤ k a) := by
  induction l with
  | nil => simp [sortDesc]
  | cons x xs ih => exact pairwise_insertDesc k x _ ih

theorem insertDesc_map_snd {β : Type} (k : β → ℚ) (x : ℕ × β) (l : List (ℕ × β)) :
    (insertDesc (fun p => k p.2) x l).map Prod.snd = insertDesc k x.2 (l.map Prod.snd) := by
  induction l with
  | nil => simp [insertDesc]
  | cons y ys ih =>
    simp only [insertDesc, List.map_cons]
    by_cases h : k x.2 < k y.2
    · rw [if_pos h, if_pos h, List.map_cons, ih]
    · rw [if_neg h, if_neg h, List.map_cons, List.map_cons]

theorem sortDesc_map_snd {β : Type} (k : β → ℚ) (l : List (ℕ × β)) :
    (sortDesc (fun p => k p.2) l).map Prod.snd = sortDesc k (l.map Prod.snd) := by
  induction l with
  | nil => simp [sortDesc]
  | cons x xs ih => simp only [sortDesc, List.map_cons, insertDesc_map_snd, ih]

theorem pairwise_insertDesc_stable {β : Type} (k : β → ℚ) (x : ℕ × β) (l : List (ℕ × β))
    (hrel : l.Pairwise (fun a b => k b.2 < k a.2 ∨ a.1 < b.1))
    (hidx : ∀ z ∈ l, x.1 < z.1) :
    (insertDesc (fun p => k p.2) x l).Pairwise (fun a b => k b.2 < k a.2 ∨ a.1 < b.1) := by
  induction l with
  | nil => simp [insertDesc]
  | cons y ys ih =>
    rcases List.pairwise_cons.mp hrel with ⟨hy_rel, hys_rel⟩
    simp only [insertDesc]
    by_cases hxy : k x.2 < k y.2
    · rw [if_pos hxy]
      refine List.pairwise_cons.mpr
        ⟨?_, ih hys_rel (fun z hz => hidx z (List.mem_cons_of_mem y hz))⟩
      intro a ha
      rcases mem_insertDesc.mp ha with rfl | ha
      · exact Or.inl hxy
      · exact hy_rel a ha
    · rw [if_neg hxy]
      refine List.pairwise_cons.mpr ⟨?_, hrel⟩
      intro a ha
      rcases List.mem_cons.mp ha with rfl | ha
      · exact Or.inr (hidx a (List.mem_cons_self a ys))
      · exact Or.inr (hidx a (List.mem_cons_of_mem y ha))

theorem sortDesc_pairs_stable {β : Type} (k : β → ℚ) (l : List (ℕ × β))
    (h : l.Pairwise (fun a b => a.1 < b.1)) :
    (sortDesc (fun p => k p.2) l).Pairwise (fun a b => k b.2 < k a.2 ∨ a.1 < b.1) := by
  induction l with
  | nil => simp [sortDesc]
  | cons x xs ih =>
    rcases List.pairwise_cons.mp h with ⟨hx, hxs⟩
    refine pairwise_insertDesc_stable k x _ (ih hxs) ?_
    intro z hz
    exact hx z ((sortDesc_perm _ _).mem_iff.mp hz)

theorem pairwise_fst_lt_enumFrom {α : Type} (n : ℕ) (l : List α) :
    (List.enumFrom n l).Pairwise (fun a b => a.1 < b.1) := by
  induction l generalizing n with
  | nil => simp
  | cons x xs ih =>
    refine List.pairwise_cons.mpr ⟨?_, ih (n + 1)⟩
    rintro ⟨i, y⟩ ha
    exact lt_of_lt_of_le (Nat.lt_succ_self n) (List.mem_enumFrom ha).1

theorem pairwise_fst_lt_enum {α : Type} (l : List α) :
    l.enum.Pairwise (fun a b => a.1 < b.1) :=
  pairwise_fst_lt_enumFrom 0 l

/-! ### Properties of the condition-performance dictionary -/

theorem lookup_isSome_iff_mem_keys (acc : List (String × List Bool)) (c : String) :
    (List.lookup c acc).isSome ↔ c ∈ acc.map Prod.fst := by
  induction acc with
  | nil => simp
  | cons p ps ih =>
    rcases p with ⟨k, v⟩
    by_cases h : c = k
    · subst h
      simp [List.lookup]
    · simp [List.lookup, beq_false_of_ne h, ih, h]

theorem any_key_iff_mem_keys (acc : List (String × List Bool)) (c : String) :
    (acc.any (fun p => p.1 = c)) = true ↔ c ∈ acc.map Prod.fst := by
  simp [List.any_eq_true]

theorem update_pair_self (c : String) (v : List Bool) (b : Bool) :
    (if (c, v).1 = c then ((c, v).1, (c, v).2 ++ [b]) else (c, v)) = (c, v ++ [b]) := by
  simp

theorem update_pair_ne (k c : String) (v : List Bool) (b : Bool) (h : ¬ k = c) :
    (if (k, v).1 = c then ((k, v).1, (k, v).2 ++ [b]) else (k, v)) = (k, v) := by
  simp [h]

theorem lookup_map_update_self (acc : List (String × List Bool)) (c : String) (b : Bool) :
    List.lookup c (acc.map (fun p => if p.1 = c then (p.1, p.2 ++ [b]) else p)) =
      (List.lookup c acc).map (fun l => l ++ [b]) := by
  induction acc with
  | nil => rfl
  | cons p ps ih =>
    rcases p with ⟨k, v⟩
    by_cases h : k = c
    · subst h
      rw [List.map_cons]
      simp only [update_pair_self]
      simp [List.lookup, ih]
    · have h' : ¬ c = k := fun hc => h hc.symm
      rw [List.map_cons]
      simp only [update_pair_ne k c v b h]
      simp [List.lookup, beq_false_of_ne h', ih]

theorem lookup_map_update_ne (acc : List (String × List Bool)) (c c' : String) (b : Bool)
    (h : c ≠ c') :
    List.lookup c (acc.map (fun p => if p.1 = c' then (p.1, p.2 ++ [b]) else p)) =
      List.lookup c acc := by
  induction acc with
  | nil => rfl
  | cons p ps ih =>
    rcases p with ⟨k, v⟩
    by_cases hk : k = c'
    · subst hk
      rw [List.map_cons]
      simp only [update_pair_self]
      simp [List.lookup, beq_false_of_ne h, ih]
    · rw [List.map_cons]
      simp only [update_pair_ne k c' v b hk]
      by_cases hck : c = k
      · subst hck
        simp [List.lookup]
      · simp [List.lookup, beq_false_of_ne hck, ih]

theorem lookup_append_single_of_none (acc : List (String × List Bool)) (c : String)
    (x : List Bool) (h : List.lookup c acc = none) :
    List.lookup c (acc ++ [(c, x)]) = some x := by
  induction acc with
  | nil => simp [List.lookup]
  | cons p ps ih =>
    rcases p with ⟨k, v⟩
    by_cases hck : c = k
    · subst hck
      simp [List.lookup] at h
    · simp only [List.cons_append, List.lookup, beq_false_of_ne hck] at h ⊢
      exact ih h

theorem lookup_append_single_ne (acc : List (String × List Bool)) (c c' : String)
    (x : List Bool) (h : c ≠ c') :
    List.lookup c (acc ++ [(c', x)]) = List.lookup c acc := by
  induction acc with
  | nil => simp [List.lookup, beq_false_of_ne h]
  | cons p ps ih =>
    rcases p with ⟨k, v⟩
    by_cases hck : c = k
    · subst hck
      simp [List.lookup]
    · simp only [List.cons_append, List.lookup, beq_false_of_ne hck]
      exact ih

theorem lookup_addOutcome_self (acc : List (String × List Bool)) (c : String) (b : Bool) :
    List.lookup c (addOutcome acc c b) = some ((List.lookup c acc).getD [] ++ [b]) := by
  unfold addOutcome
  by_cases h : (acc.any (fun p => p.1 = c)) = true
  · rw [if_pos h]
    have hs : (List.lookup c acc).isSome :=
      (lookup_isSome_iff_mem_keys acc c).mpr ((any_key_iff_mem_keys acc c).mp h)
    obtain ⟨l, hl⟩ := Option.isSome_iff_exists.mp hs
    rw [lookup_map_update_self, hl]
    simp
  · rw [if_neg h]
    have hn : List.lookup c acc = none := by
      by_contra hne
      have : (List.lookup c acc).isSome := Option.ne_none_iff_isSome.mp hne
      exact h ((any_key_iff_mem_keys acc c).mpr ((lookup_isSome_iff_mem_keys acc c).mp this))
    rw [lookup_append_single_of_none acc c [b] hn, hn]
    simp

theorem lookup_addOutcome_ne (acc : List (String × List Bool)) (c c' : String) (b : Bool)
    (h : c ≠ c') :
    List.lookup c (addOutcome acc c' b) = List.lookup c acc := by
  unfold addOutcome
  by_cases hc : (acc.any (fun p => p.1 = c')) = true
  · rw [if_pos hc]
    exact lookup_map_update_ne acc c c' b h
  · rw [if_neg hc]
    exact lookup_append_single_ne acc c c' [b] h

theorem lookup_foldl_addOutcome (b : Bool) (cs : List String)
    (acc : List (String × List Bool)) (c : String) :
    List.lookup c (cs.foldl (fun a x => addOutcome a x b) acc) =
      if (List.lookup c acc).isSome = true ∨ c ∈ cs
      then some ((List.lookup c acc).getD [] ++ List.replicate (List.count c cs) b)
      else none := by
  induction cs generalizing acc with
  | nil =>
    cases hl : List.lookup c acc with
    | none => simp [hl]
    | some l => simp [hl]
  | cons x cs ih =>
    rw [List.foldl_cons, ih (addOutcome acc x b)]
    by_cases hcx : c = x
    · subst hcx
      rw [lookup_addOutcome_self]
      have hc1 : ((some ((List.lookup c acc).getD [] ++ [b])).isSome = true ∨ c ∈ cs) :=
        Or.inl rfl
      have hc2 : ((List.lookup c acc).isSome = true ∨ c ∈ c :: cs) :=
        Or.inr (List.mem_cons_self c cs)
      rw [if_pos hc1, if_pos hc2, List.count_cons_self]
      simp only [Option.getD_some]
      rw [List.append_assoc]
      congr 2
    · rw [lookup_addOutcome_ne acc c x b hcx]
      have hcount : List.count c (x :: cs) = List.count c cs := by
        rw [List.count_cons]
        simp [beq_false_of_ne (fun h => hcx h.symm)]
      have hmem : (c ∈ cs) ↔ (c ∈ x :: cs) := by
        simp [List.mem_cons, hcx]
      exact if_congr (or_congr Iff.rfl hmem) (by rw [hcount]) rfl

/-- The outcome list accumulated for label `c` over a trade sequence: one
boolean per occurrence of `c` in each trade's condition list. -/
def conditionOutcomes (c : String) (trades : List TradeEntry) : List Bool :=
  trades.flatMap
    (fun t => List.replicate (List.count c t.market_conditions) (decide (0 < t.profit_loss)))

theorem lookup_foldl_trades (ts : List TradeEntry) (acc : List (String × List Bool))
    (c : String) :
    List.lookup c
        (ts.foldl
          (fun acc t =>
            t.market_conditions.foldl
              (fun a x => addOutcome a x (decide (0 < t.profit_loss))) acc)
          acc) =
      if (List.lookup c acc).isSome = true ∨ c ∈ ts.flatMap (fun t => t.market_conditions)
      then some ((List.lookup c acc).getD [] ++ conditionOutcomes c ts)
      else none := by
  induction ts generalizing acc with
  | nil =>
    cases hl : List.lookup c acc with
    | none => simp [hl, conditionOutcomes]
    | some l => simp [hl, conditionOutcomes]
  | cons t ts ih =>
    rw [List.foldl_cons, ih, lookup_foldl_addOutcome]
    by_cases ha : (List.lookup c acc).isSome = true ∨ c ∈ t.market_conditions
    · rw [if_pos ha]
      have hr : (List.lookup c acc).isSome = true ∨
          c ∈ (t :: ts).flatMap (fun t => t.market_conditions) := by
        rcases ha with h | h
        · exact Or.inl h
        · exact Or.inr (by rw [List.flatMap_cons]; exact List.mem_append_left _ h)
      rw [if_pos hr]
      simp only [Option.isSome_some, true_or, if_true, Option.getD_some]
      have hout : conditionOutcomes c (t :: ts) =
          List.replicate (List.count c t.market_conditions) (decide (0 < t.profit_loss)) ++
            conditionOutcomes c ts := by
        simp [conditionOutcomes, List.flatMap_cons]
      rw [hout, ← List.append_assoc]
    · rw [if_neg ha]
      push_neg at ha
      obtain ⟨h1, h2⟩ := ha
      have hA : List.lookup c acc = none := Option.not_isSome_iff_eq_none.mp h1
      have hn : List.count c t.market_conditions = 0 := List.count_eq_zero.mpr h2
      have hmem : (c ∈ ts.flatMap (fun t => t.market_conditions)) ↔
          (c ∈ (t :: ts).flatMap (fun t => t.market_conditions)) := by
        simp [List.flatMap_cons, List.mem_append, h2]
      have hout : conditionOutcomes c (t :: ts) = conditionOutcomes c ts := by
        simp [conditionOutcomes, List.flatMap_cons, hn]
      rw [hA]
      simp only [Option.isSome_none, Option.getD_none, List.nil_append, hout]
      exact if_congr (or_congr Iff.rfl hmem) rfl rfl

theorem lookup_condition_performance (trades : List TradeEntry) (c : String) :
    List.lookup c (condition_performance trades) =
      if c ∈ trades.flatMap (fun t => t.market_conditions)
      then some (conditionOutcomes c trades) else none := by
  unfold condition_performance
  rw [lookup_foldl_trades]
  simp

theorem keys_addOutcome (acc : List (String × List Bool)) (c : String) (b : Bool) :
    (addOutcome acc c b).map Prod.fst =
      if c ∈ acc.map Prod.fst then acc.map Prod.fst else acc.map Prod.fst ++ [c] := by
  unfold addOutcome
  by_cases h : (acc.any fun p => p.1 = c) = true
  · rw [if_pos h, if_pos ((any_key_iff_mem_keys acc c).mp h)]
    rw [List.map_map]
    apply List.map_congr_left
    intro p hp
    by_cases hpc : p.1 = c
    · simp [Function.comp, hpc]
    · simp [Function.comp, hpc]
  · rw [if_neg h, if_neg (fun hm => h ((any_key_iff_mem_keys acc c).mpr hm))]
    simp

theorem mem_keys_addOutcome (acc : List (String × List Bool)) (c : String) (b : Bool)
    (x : String) :
    x ∈ (addOutcome acc c b).map Prod.fst ↔ x ∈ acc.map Prod.fst ∨ x = c := by
  rw [keys_addOutcome]
  by_cases h : c ∈ acc.map Prod.fst
  · rw [if_pos h]
    constructor
    · exact Or.inl
    · rintro (hx | rfl)
      · exact hx
      · exact h
  · rw [if_neg h]
    simp [List.mem_append]

theorem nodup_keys_addOutcome (acc : List (String × List Bool)) (c : String) (b : Bool)
    (h : (acc.map Prod.fst).Nodup) :
    ((addOutcome acc c b).map Prod.fst).Nodup := by
  rw [keys_addOutcome]
  by_cases hm : c ∈ acc.map Prod.fst
  · rwa [if_pos hm]
  · rw [if_neg hm]
    simp [List.nodup_append, h, hm]

theorem keys_foldl_addOutcome (b : Bool) (cs : List String)
    (acc : List (String × List Bool)) (h : (acc.map Prod.fst).Nodup) :
    ((cs.foldl (fun a x => addOutcome a x b) acc).map Prod.fst).Nodup ∧
    ∀ y, y ∈ (cs.foldl (fun a x => addOutcome a x b) acc).map Prod.fst ↔
      y ∈ acc.map Prod.fst ∨ y ∈ cs := by
  induction cs generalizing acc with
  | nil =>
    refine ⟨h, fun y => ?_⟩
    simp
  | cons x cs ih =>
    rw [List.foldl_cons]
    obtain ⟨hnd, hmem⟩ := ih (addOutcome acc x b) (nodup_keys_addOutcome acc x b h)
    refine ⟨hnd, fun y => ?_⟩
    rw [hmem y, mem_keys_addOutcome]
    simp [List.mem_cons]
    tauto

theorem keys_foldl_trades (ts : List TradeEntry) (acc : List (String × List Bool))
    (h : (acc.map Prod.fst).Nodup) :
    ((ts.foldl
        (fun acc t =>
          t.market_conditions.foldl
            (fun a x => addOutcome a x (decide (0 < t.profit_loss))) acc)
        acc).map Prod.fst).Nodup ∧
    ∀ y, y ∈ (ts.foldl
        (fun acc t =>
          t.market_conditions.foldl
            (fun a x => addOutcome a x (decide (0 < t.profit_loss))) acc)
        acc).map Prod.fst ↔
      y ∈ acc.map Prod.fst ∨ y ∈ ts.flatMap (fun t => t.market_conditions) := by
  induction ts generalizing acc with
  | nil =>
    refine ⟨h, fun y => ?_⟩
    simp
  | cons t ts ih =>
    rw [List.foldl_cons]
    obtain ⟨hnd0, hmem0⟩ :=
      keys_foldl_addOutcome (decide (0 < t.profit_loss)) t.market_conditions acc h
    obtain ⟨hnd, hmem⟩ := ih _ hnd0
    refine ⟨hnd, fun y => ?_⟩
    rw [hmem y, hmem0 y]
    simp [List.flatMap_cons, List.mem_append]
    tauto

theorem keys_condition_performance (trades : List TradeEntry) :
    ((condition_performance trades).map Prod.fst).Nodup ∧
    ∀ y, y ∈ (condition_performance trades).map Prod.fst ↔
      y ∈ trades.flatMap (fun t => t.market_conditions) := by
  unfold condition_performance
  obtain ⟨hnd, hmem⟩ := keys_foldl_trades trades [] (by simp)
  refine ⟨hnd, fun y => ?_⟩
  rw [hmem y]
  simp

theorem keys_perm_dedup (trades : List TradeEntry) :
    ((condition_performance trades).map Prod.fst).Perm
      ((trades.flatMap (fun t => t.market_conditions)).dedup) := by
  obtain ⟨hnd, hmem⟩ := keys_condition_performance trades
  rw [List.perm_ext_iff_of_nodup hnd (List.nodup_dedup _)]
  intro a
  rw [hmem a, List.mem_dedup]

theorem length_condition_performance (trades : List TradeEntry) :
    (condition_performance trades).length =
      ((trades.flatMap (fun t => t.market_conditions)).dedup).length := by
  have h := (keys_perm_dedup trades).length_eq
  simpa using h

theorem countP_id_replicate (n : ℕ) (b : Bool) :
    (List.replicate n b).countP id = if b = true then n else 0 := by
  induction n with
  | zero => cases b <;> simp
  | succ n ih =>
    rw [List.replicate_succ, List.countP_cons, ih]
    cases b <;> simp

theorem conditionOutcomes_length (c : String) (trades : List TradeEntry)
    (h : ∀ t ∈ trades, t.market_conditions.Nodup) :
    (conditionOutcomes c trades).length =
      trades.countP (fun t => decide (c ∈ t.market_conditions)) := by
  induction trades with
  | nil => rfl
  | cons t ts ih =>
    have hnd := h t (List.mem_cons_self t ts)
    have ihts := ih (fun u hu => h u (List.mem_cons_of_mem t hu))
    by_cases hm : c ∈ t.market_conditions
    · simp [conditionOutcomes, List.flatMap_cons, List.countP_cons, ihts,
        List.count_eq_one_of_mem hnd hm, hm, Nat.add_comm]
      simp [conditionOutcomes] at ihts
      rw [ihts]
    · simp [conditionOutcomes, List.flatMap_cons, List.countP_cons, ihts,
        List.count_eq_zero.mpr hm, hm]
      simp [conditionOutcomes] at ihts
      rw [ihts]

theorem conditionOutcomes_countP (c : String) (trades : List TradeEntry)
    (h : ∀ t ∈ trades, t.market_conditions.Nodup) :
    (conditionOutcomes c trades).countP id =
      trades.countP (fun t => decide (c ∈ t.market_conditions ∧ 0 < t.profit_loss)) := by
  induction trades with
  | nil => rfl
  | cons t ts ih =>
    have hnd := h t (List.mem_cons_self t ts)
    have ihts := ih (fun u hu => h u (List.mem_cons_of_mem t hu))
    have hsplit : (conditionOutcomes c (t :: ts)).countP id =
        (List.replicate (List.count c t.market_conditions)
          (decide (0 < t.profit_loss))).countP id + (conditionOutcomes c ts).countP id := by
      simp [conditionOutcomes, List.flatMap_cons, List.countP_append]
    rw [hsplit, countP_id_replicate, ihts, List.countP_cons]
    by_cases hm : c ∈ t.market_conditions
    · rw [List.count_eq_one_of_mem hnd hm]
      by_cases hp : 0 < t.profit_loss
      · simp [hm, hp, Nat.add_comm]
      · simp [hm, hp]
    · rw [List.count_eq_zero.mpr hm]
      simp [hm]

theorem conditionOutcomes_length_occ (c : String) (trades : List TradeEntry) :
    (conditionOutcomes c trades).length =
      (trades.map (fun t => List.count c t.market_conditions)).sum := by
  induction trades with
  | nil => rfl
  | cons t ts ih =>
    have hsplit : (conditionOutcomes c (t :: ts)).length =
        List.count c t.market_conditions + (conditionOutcomes c ts).length := by
      simp [conditionOutcomes, List.flatMap_cons]
    rw [hsplit, ih, List.map_cons, List.sum_cons]

theorem conditionOutcomes_countP_occ (c : String) (trades : List TradeEntry) :
    (conditionOutcomes c trades).countP id =
      ((trades.filter (fun t => decide (0 < t.profit_loss))).map
        (fun t => List.count c t.market_conditions)).sum := by
  induction trades with
  | nil => rfl
  | cons t ts ih =>
    have hsplit : (conditionOutcomes c (t :: ts)).countP id =
        (List.replicate (List.count c t.market_conditions)
          (decide (0 < t.profit_loss))).countP id + (conditionOutcomes c ts).countP id := by
      simp [conditionOutcomes, List.flatMap_cons, List.countP_append]
    rw [hsplit, countP_id_replicate, ih]
    by_cases hp : 0 < t.profit_loss
    · simp [List.filter_cons, hp]
    · simp [List.filter_cons, hp]

theorem lookup_of_mem_nodup_keys (acc : List (String × List Bool))
    (h : (acc.map Prod.fst).Nodup) (p : String × List Bool) (hp : p ∈ acc) :
    List.lookup p.1 acc = some p.2 := by
  induction acc with
  | nil => cases hp
  | cons q qs ih =>
    rcases List.mem_cons.mp hp with rfl | hp'
    · rcases p with ⟨k, v⟩
      simp [List.lookup]
    · rcases q with ⟨k, v⟩
      rw [List.map_cons] at h
      have hk : ¬ p.1 = k := by
        intro hpk
        have hmem : p.1 ∈ qs.map Prod.fst := List.mem_map_of_mem Prod.fst hp'
        rw [hpk] at hmem
        exact (List.nodup_cons.mp h).1 hmem
      simp only [List.lookup, beq_false_of_ne hk]
      exact ih (List.nodup_cons.mp h).2 hp'

/-- A winning trade that lists the label `"x"` twice. -/
def dupTrade : TradeEntry :=
  ⟨0, "XXX", 1, 2, 1, "long", ["x", "x"], "", []⟩

/-- A losing trade carrying the label `"x"` once. -/
def lossTrade : TradeEntry :=
  ⟨0, "YYY", 2, 1, 1, "long", ["x"], "", []⟩

/-- C5 (amended): for every trade sequence, every entry of the
condition-performance dictionary — the data the ranking consumes — carries one
outcome per occurrence of its label in each trade's condition list, so its win
rate is the number of occurrences of the label across trades with positive
`profit_loss` over the total occurrences of the label across all trades; and
provided no trade lists the same label more than once, this equals the number
of trades carrying the label with positive `profit_loss` over the number of
trades carrying the label. -/
theorem per_label_win_rate (trades : List TradeEntry) :
    ∀ p ∈ condition_performance trades,
      p.2 = conditionOutcomes p.1 trades ∧
      p.2.length = (trades.map (fun t => List.count p.1 t.market_conditions)).sum ∧
      p.2.countP id =
        ((trades.filter (fun t => decide (0 < t.profit_loss))).map
          (fun t => List.count p.1 t.market_conditions)).sum ∧
      winRate p =
        ((((trades.filter (fun t => decide (0 < t.profit_loss))).map
            (fun t => List.count p.1 t.market_conditions)).sum : ℕ) : ℚ) /
          (((trades.map (fun t => List.count p.1 t.market_conditions)).sum : ℕ) : ℚ) ∧
      ((∀ t ∈ trades, t.market_conditions.Nodup) →
        winRate p =
          ((trades.countP
              (fun t => decide (p.1 ∈ t.market_conditions ∧ 0 < t.profit_loss)) : ℕ) : ℚ) /
            ((trades.countP (fun t => decide (p.1 ∈ t.market_conditions)) : ℕ) : ℚ)) := by
  intro p hp
  have hkeys := keys_condition_performance trades
  have hlook : List.lookup p.1 (condition_performance trades) = some p.2 :=
    lookup_of_mem_nodup_keys _ hkeys.1 p hp
  rw [lookup_condition_performance] at hlook
  have hmem : p.1 ∈ trades.flatMap (fun t => t.market_conditions) := by
    by_contra hc
    rw [if_neg hc] at hlook
    cases hlook
  rw [if_pos hmem] at hlook
  have hout : p.2 = conditionOutcomes p.1 trades := by
    injection hlook with h
    exact h.symm
  refine ⟨hout, ?_, ?_, ?_, ?_⟩
  · rw [hout, conditionOutcomes_length_occ]
  · rw [hout, conditionOutcomes_countP_occ]
  · unfold winRate
    rw [hout, conditionOutcomes_countP_occ, conditionOutcomes_length_occ]
  · intro hnd
    unfold winRate
    rw [hout, conditionOutcomes_countP p.1 trades hnd, conditionOutcomes_length p.1 trades hnd]

/-- Witness for C5: the occurrence-weighted formula at the duplicate-label
input (where it is `2/3`-shaped, not per-trade), and the per-trade formula for
the `"trend"` entry of the worked example, whose trades repeat no label. -/
theorem per_label_win_rate_witness :
    (("x", [true, true, false]) ∈ condition_performance [dupTrade, lossTrade]) ∧
    winRate ("x", [true, true, false]) =
      (((([dupTrade, lossTrade].filter (fun t => decide (0 < t.profit_loss))).map
          (fun t => List.count "x" t.market_conditions)).sum : ℕ) : ℚ) /
        ((([dupTrade, lossTrade].map
          (fun t => List.count "x" t.market_conditions)).sum : ℕ) : ℚ) ∧
    (("trend", [true, true]) ∈ condition_performance [exTrade1, exTrade2, exTrade3]) ∧
    winRate ("trend", [true, true]) =
      (([exTrade1, exTrade2, exTrade3].countP
          (fun t => decide ("trend" ∈ t.market_conditions ∧ 0 < t.profit_loss)) : ℕ) : ℚ) /
        (([exTrade1, exTrade2, exTrade3].countP
          (fun t => decide ("trend" ∈ t.market_conditions)) : ℕ) : ℚ) := by
  have hmem1 : ("x", [true, true, false]) ∈ condition_performance [dupTrade, lossTrade] := by
    simp [condition_performance, addOutcome, TradeEntry.profit_loss,
      dupTrade, lossTrade, List.foldl]
  have hmem2 :
      ("trend", [true, true]) ∈ condition_performance [exTrade1, exTrade2, exTrade3] := by
    have hs : ("short" = "long") = False := eq_false (by decide)
    simp [condition_performance, addOutcome, TradeEntry.profit_loss,
      exTrade1, exTrade2, exTrade3, hs, List.foldl]
    norm_num
  have h1 := per_label_win_rate [dupTrade, lossTrade] ("x", [true, true, false]) hmem1
  have h2 := per_label_win_rate [exTrade1, exTrade2, exTrade3] ("trend", [true, true]) hmem2
  exact ⟨hmem1, h1.2.2.2.1, hmem2, h2.2.2.2.2 (by decide)⟩

/-- Counterexample for C5 as stated: when a trade repeats a label, the ranking
data counts it once per occurrence — label `"x"` gets outcome list
`[true, true, false]` and win rate `2/3`, while the claimed per-trade ratio is
`1/2`. -/
theorem per_label_win_rate_counterexample :
    List.lookup "x" (condition_performance [dupTrade, lossTrade]) =
      some [true, true, false] ∧
    winRate ("x", [true, true, false]) = 2/3 ∧
    ((([dupTrade, lossTrade].countP
          (fun t => decide ("x" ∈ t.market_conditions ∧ 0 < t.profit_loss)) : ℕ) : ℚ) /
        (([dupTrade, lossTrade].countP
          (fun t => decide ("x" ∈ t.market_conditions)) : ℕ) : ℚ) = 1/2) ∧
    (2/3 : ℚ) ≠ 1/2 := by
  refine ⟨?_, ?_, ?_, by norm_num⟩
  · simp [condition_performance, addOutcome, TradeEntry.profit_loss,
      dupTrade, lossTrade, List.foldl, List.lookup]
  · simp [winRate]
  · simp [TradeEntry.profit_loss, dupTrade, lossTrade]

/-- C4: on every non-empty snapshot, `best_conditions` is the first
`min(3, number of distinct labels)` labels of the condition entries sorted
stably descending by win rate (the sort is a permutation, its keys are
non-increasing, and entries with equal win rate keep their first-encountered
order, expressed over the index-tagged list), and `pattern_insights` holds
exactly one formatted string per `best_conditions` entry. -/
theorem best_conditions_spec (t : TradeEntry) (rest : List TradeEntry) :
    ∃ r, analyze_performance (t :: rest) = .ok r ∧
      r.best_conditions =
        ((sortDesc winRate (condition_performance (t :: rest))).take 3).map Prod.fst ∧
      r.pattern_insights =
        ((sortDesc winRate (condition_performance (t :: rest))).take 3).map insightString ∧
      r.best_conditions.length =
        min 3 (((t :: rest).flatMap (fun u => u.market_conditions)).dedup).length ∧
      (sortDesc winRate (condition_performance (t :: rest))).Perm
        (condition_performance (t :: rest)) ∧
      (sortDesc winRate (condition_performance (t :: rest))).Pairwise
        (fun a b => winRate b ≤ winRate a) ∧
      (sortDesc (fun p => winRate p.2) (condition_performance (t :: rest)).enum).map
          Prod.snd =
        sortDesc winRate (condition_performance (t :: rest)) ∧
      (sortDesc (fun p => winRate p.2) (condition_performance (t :: rest)).enum).Pairwise
        (fun a b => winRate b.2 < winRate a.2 ∨ a.1 < b.1) := by
  refine ⟨_, analyze_performance_cons t rest, rfl, rfl, ?_, sortDesc_perm _ _,
    sortDesc_sorted _ _, ?_, sortDesc_pairs_stable winRate _ (pairwise_fst_lt_enum _)⟩
  · simp [bestConditions, List.length_take, (sortDesc_perm winRate _).length_eq,
      length_condition_performance]
  · rw [sortDesc_map_snd, List.enum_map_snd]

end AITradingJournal
